import Mathlib

/-!
Verification of the Relationship Graph Engine of scripts/relationship_analyzer.py:
graph building from foreign keys, junction-table classification, breadth-first
join-path search, and multi-table JOIN synthesis.

The Python code is shallowly embedded: dictionaries keyed by table name become
association lists from String to values (Python dicts preserve insertion order,
and these association lists are built the same way), Python sets whose only
observable operations are membership and insertion become Finset String, and
the BFS while-loop becomes a fuel-indexed recursion whose fuel is proven
sufficient wherever a claim depends on it.  The one nondeterminism in the
source, iteration over the set of already-joined tables in generate_join_query,
is modelled as insertion-order iteration, the determinization the specification
itself prescribes.
-/

namespace RelationshipAnalyzer

/-- A foreign-key record as produced by get_foreign_keys. -/
structure ForeignKey where
  constraint_name : String
  from_table : String
  from_column : String
  to_table : String
  to_column : String
  on_update : String
  on_delete : String
deriving DecidableEq

/-- An adjacency-list edge of the relationship graph.  The forward edges the
Python code builds carry no reverse key; since the code only ever reads the
key through a get with default False, they are modelled with reverse = false. -/
structure Edge where
  to_table : String
  from_column : String
  to_column : String
  constraint : String
  reverse : Bool
deriving DecidableEq

/-- A junction-table candidate emitted by detect_many_to_many. -/
structure JunctionCandidate where
  junction_table : String
  table1 : String
  table1_column : String
  table2 : String
  table2_column : String
  junction_column1 : String
  junction_column2 : String
deriving DecidableEq

/-- One join step of a path, the step dictionary of find_path_between_tables
(its Python keys are from and to; from is a Lean keyword, so the spec record
names from_table and to_table are used). -/
structure Step where
  from_table : String
  to_table : String
  from_column : String
  to_column : String
  constraint : String
  reverse : Bool
deriving DecidableEq

/-- Association lists from table names to accumulated values model the Python
defaultdict(list): appending targets the first entry with the given key, or
adds a fresh entry at the end. -/
def assocAppend {β : Type} : List (String × List β) → String → β → List (String × List β)
  | [], k, v => [(k, [v])]
  | (k', vs) :: rest, k, v =>
      if k' = k then (k', vs ++ [v]) :: rest else (k', vs) :: assocAppend rest k v

/-- Value list stored under a key (empty when absent), the read side of the
defaultdict. -/
def assocFind {β : Type} : List (String × List β) → String → List β
  | [], _ => []
  | (k', vs) :: rest, k => if k' = k then vs else assocFind rest k

/-- Key membership, the Python `in` test on the dictionary. -/
def assocHasKey {β : Type} : List (String × List β) → String → Bool
  | [], _ => false
  | (k', _) :: rest, k => k' = k || assocHasKey rest k

/-- The adjacency structure of the relationship graph. -/
abbrev Adj := List (String × List Edge)

/-- Edges leaving a table. -/
def adjEdges (adj : Adj) (t : String) : List Edge := assocFind adj t

/-- Whether a table is a key of the adjacency map. -/
def adjHasKey (adj : Adj) (t : String) : Bool := assocHasKey adj t

/-- The forward edge a ForeignKey contributes to adjacency[from_table]. -/
def fwdEdge (fk : ForeignKey) : Edge :=
  { to_table := fk.to_table, from_column := fk.from_column, to_column := fk.to_column,
    constraint := fk.constraint_name, reverse := false }

/-- The reverse edge a ForeignKey contributes to adjacency[to_table]. -/
def revEdge (fk : ForeignKey) : Edge :=
  { to_table := fk.from_table, from_column := fk.to_column, to_column := fk.from_column,
    constraint := fk.constraint_name, reverse := true }

/-- One iteration of the adjacency-building loop of build_relationship_graph. -/
def addFkEdges (adj : Adj) (fk : ForeignKey) : Adj :=
  assocAppend (assocAppend adj fk.from_table (fwdEdge fk)) fk.to_table (revEdge fk)

/-- The adjacency map built by build_relationship_graph. -/
def buildAdj (foreign_keys : List ForeignKey) : Adj :=
  foreign_keys.foldl addFkEdges []

/-- The node set of build_relationship_graph before sorting. -/
def nodesFinset (foreign_keys : List ForeignKey) : Finset String :=
  foreign_keys.foldl (fun s fk => insert fk.to_table (insert fk.from_table s)) ∅

/-- Grouping of the foreign keys by from_table, the fk_by_table defaultdict of
detect_many_to_many. -/
def fkByTable (foreign_keys : List ForeignKey) : List (String × List ForeignKey) :=
  foreign_keys.foldl (fun m fk => assocAppend m fk.from_table fk) []

/-- The junction candidates one group contributes: exactly two foreign keys and
a total column count of at most 4. -/
def junctionOf (column_count : String → Nat) (pr : String × List ForeignKey) :
    List JunctionCandidate :=
  match pr.2 with
  | [f1, f2] =>
      if column_count pr.1 ≤ 4 then
        [{ junction_table := pr.1,
           table1 := f1.to_table, table1_column := f1.to_column,
           table2 := f2.to_table, table2_column := f2.to_column,
           junction_column1 := f1.from_column, junction_column2 := f2.from_column }]
      else []
  | _ => []

/-- detect_many_to_many: the database column count query is abstracted as the
function column_count, the only data it contributes. -/
def detect_many_to_many (foreign_keys : List ForeignKey)
    (column_count : String → Nat) : List JunctionCandidate :=
  (fkByTable foreign_keys).foldl (fun acc pr => acc ++ junctionOf column_count pr) []

/-- The relationship graph dictionary returned by build_relationship_graph. -/
structure RelationshipGraph where
  nodes : List String
  adjacency : Adj
  foreign_keys : List ForeignKey
  many_to_many : List JunctionCandidate

/-- build_relationship_graph, over an already-extracted foreign-key list and
the column-count oracle used by junction detection. -/
def build_relationship_graph (foreign_keys : List ForeignKey)
    (column_count : String → Nat) : RelationshipGraph :=
  { nodes := (nodesFinset foreign_keys).sort (· ≤ ·),
    adjacency := buildAdj foreign_keys,
    foreign_keys := foreign_keys,
    many_to_many := detect_many_to_many foreign_keys column_count }

/-- The step dictionary built from the current table and one of its edges. -/
def mkStep (cur : String) (e : Edge) : Step :=
  { from_table := cur, to_table := e.to_table, from_column := e.from_column,
    to_column := e.to_column, constraint := e.constraint, reverse := e.reverse }

/-- A queue entry of the BFS: a table together with the path that reached it. -/
abbrev QEntry := String × List Step

/-- The inner for-loop of the BFS: scan the edges of the current table,
skipping visited destinations, returning as soon as an edge reaches the target,
and otherwise marking the destination visited and enqueueing it. -/
def processEdges (endT t : String) (p : List Step) :
    List Edge → List QEntry → Finset String → (List Step) ⊕ (List QEntry × Finset String)
  | [], q, vis => Sum.inr (q, vis)
  | e :: es, q, vis =>
      if e.to_table ∈ vis then processEdges endT t p es q vis
      else if e.to_table = endT then Sum.inl (p ++ [mkStep t e])
      else processEdges endT t p es (q ++ [(e.to_table, p ++ [mkStep t e])]) (insert e.to_table vis)

/-- The BFS while-loop, indexed by fuel.  One unit of fuel is spent per popped
queue entry; each pop removes an entry and each enqueue permanently marks a
fresh table visited, so the fuel chosen in find_path_between_tables is proven
sufficient whenever a path exists. -/
def bfsAux (adj : Adj) (endT : String) :
    Nat → List QEntry → Finset String → Option (List Step)
  | 0, _, _ => none
  | _ + 1, [], _ => none
  | fuel + 1, (t, p) :: rest, vis =>
      match processEdges endT t p (adjEdges adj t) rest vis with
      | Sum.inl found => some found
      | Sum.inr (q', vis') => bfsAux adj endT fuel q' vis'

/-- All edge destinations appearing in the adjacency map. -/
def destList (adj : Adj) : List String :=
  adj.flatMap fun pr => pr.2.map Edge.to_table

/-- Fuel that strictly dominates the number of BFS iterations. -/
def bfsFuel (adj : Adj) : Nat := (destList adj).toFinset.card + 2

/-- find_path_between_tables: None when either endpoint is not a key of the
adjacency map, the empty path when the endpoints coincide, otherwise BFS. -/
def find_path_between_tables (graph : RelationshipGraph) (start_table end_table : String) :
    Option (List Step) :=
  if adjHasKey graph.adjacency start_table = false ∨
      adjHasKey graph.adjacency end_table = false then none
  else if start_table = end_table then some []
  else bfsAux graph.adjacency end_table (bfsFuel graph.adjacency)
    [(start_table, [])] {start_table}

/-- One JOIN line of the generated SQL. -/
def joinLine (st : Step) : String :=
  "JOIN " ++ st.to_table ++ " ON " ++ st.from_table ++ "." ++ st.from_column ++
    " = " ++ st.to_table ++ "." ++ st.to_column

/-- The result record of suggest_join_pattern. -/
structure JoinSuggestion where
  success : Bool
  path : Option (List Step)
  sql : Option String
  explanation : String

/-- The failure explanation of suggest_join_pattern. -/
def noRelationMsg (table1 table2 : String) : String :=
  "No foreign key relationship found between \x27" ++ table1 ++ "\x27 and \x27" ++
    table2 ++ "\x27"

/-- The success explanation of suggest_join_pattern, including its split on
the arrow separator exactly as the source performs it. -/
def suggestExplanation (table1 table2 : String) (s0 : Step) (rest : List Step) : String :=
  if rest = [] then
    "Direct relationship: " ++ table1 ++ "." ++ s0.from_column ++ " → " ++
      table2 ++ "." ++ s0.to_column
  else
    "Path through " ++ toString (s0 :: rest).length ++ " tables: " ++
      String.intercalate " → "
        (((s0 :: rest).map fun st =>
            ((st.from_table ++ " → " ++ st.to_table).splitOn " → ").headD "") ++
          [((s0 :: rest).getLast?.getD s0).to_table])

/-- suggest_join_pattern over an already-built graph (the source builds the
graph from the database connection and then proceeds exactly like this).
The Python test `if not path:` fails both on None and on the empty list. -/
def suggest_join_pattern (graph : RelationshipGraph) (table1 table2 : String) :
    JoinSuggestion :=
  match find_path_between_tables graph table1 table2 with
  | none => { success := false, path := none, sql := none,
              explanation := noRelationMsg table1 table2 }
  | some [] => { success := false, path := none, sql := none,
                 explanation := noRelationMsg table1 table2 }
  | some (s0 :: rest) =>
      { success := true,
        path := some (s0 :: rest),
        sql := some (String.intercalate "\n"
          (("FROM " ++ s0.from_table) :: (s0 :: rest).map joinLine)),
        explanation := suggestExplanation table1 table2 s0 rest }

/-- The result record of generate_join_query. -/
structure MultiJoinResult where
  success : Bool
  sql : Option String
  explanation : String
  paths : List Step

/-- The scan of the already-joined tables for the first one with a truthy
(non-None, non-empty) path to the target; Python set iteration is modelled as
insertion order. -/
def firstTruthy (graph : RelationshipGraph) : List String → String → Option (List Step)
  | [], _ => none
  | j :: rest, target =>
      match find_path_between_tables graph j target with
      | some (s :: p) => some (s :: p)
      | _ => firstTruthy graph rest target

/-- Mark every table a path steps into as joined, preserving insertion order. -/
def addTargets (joined : List String) (path : List Step) : List String :=
  path.foldl (fun js st => if st.to_table ∈ js then js else js ++ [st.to_table]) joined

/-- The failure explanation of generate_join_query. -/
def cannotFindMsg (base_table target_table : String) : String :=
  "Cannot find path from " ++ base_table ++ " to " ++ target_table

/-- The target-connection loop of generate_join_query: connect each remaining
target to the first already-joined table with a truthy path, accumulating the
steps, or fail with the accumulated steps so far. -/
def joinLoop (graph : RelationshipGraph) (base : String) :
    List String → List Step → List String → (String × List Step) ⊕ (List Step)
  | [], acc, _ => Sum.inr acc
  | t :: ts, acc, joined =>
      match firstTruthy graph joined t with
      | none => Sum.inl (cannotFindMsg base t, acc)
      | some p => joinLoop graph base ts (acc ++ p) (addTargets joined p)

/-- The deduplication key of a join step. -/
def joinKey (st : Step) : String × String × String × String :=
  (st.from_table, st.to_table, st.from_column, st.to_column)

/-- The deduplication loop of generate_join_query: keep a step when its key
has not been seen yet. -/
def dedupAux : List Step → List (String × String × String × String) → List Step
  | [], _ => []
  | st :: rest, seen =>
      if joinKey st ∈ seen then dedupAux rest seen
      else st :: dedupAux rest (joinKey st :: seen)

/-- Filter the accumulated join steps to unique keys in first-occurrence order. -/
def dedupJoins (steps : List Step) : List Step := dedupAux steps []

/-- The SELECT clause of generate_join_query. -/
def selectClause (tables : List String) (select_all : Bool) : String :=
  if select_all then "SELECT *"
  else "SELECT\n    " ++ String.intercalate ",\n    " (tables.map (· ++ ".*"))

/-- The SQL text of a successful generate_join_query. -/
def multiJoinSQL (tables : List String) (base : String) (unique_joins : List Step)
    (select_all : Bool) : String :=
  String.intercalate "\n"
    (selectClause tables select_all :: ("FROM " ++ base) :: unique_joins.map joinLine)

/-- generate_join_query over an already-built graph: fewer than two tables is
an immediate failure; otherwise connect the targets in order, deduplicate the
accumulated steps and render the SQL. -/
def generate_join_query (graph : RelationshipGraph) (tables : List String)
    (select_all : Bool) : MultiJoinResult :=
  match tables with
  | base :: t1 :: ts =>
      match joinLoop graph base (t1 :: ts) [] [base] with
      | Sum.inl (msg, acc) =>
          { success := false, sql := none, explanation := msg, paths := acc }
      | Sum.inr acc =>
          let unique_joins := dedupJoins acc
          { success := true,
            sql := some (multiJoinSQL tables base unique_joins select_all),
            explanation := "Generated JOIN connecting " ++ toString tables.length ++
              " tables using " ++ toString unique_joins.length ++ " relationships",
            paths := unique_joins }
  | _ =>
      { success := false, sql := none,
        explanation := "Need at least 2 tables to generate JOIN", paths := [] }

/-- A path of exactly n edges from s to t through the adjacency lists. -/
def reachesNb (adj : Adj) : String → String → Nat → Bool
  | s, t, 0 => s = t
  | s, t, k + 1 => (adjEdges adj s).any fun e => reachesNb adj e.to_table t k

/-- Pure well-formedness of a step list: the first step leaves s, consecutive
steps are chained, and the last step arrives at t. -/
def chainOk (s : String) : List Step → String → Bool
  | [], t => s = t
  | st :: rest, t => (st.from_table = s) && chainOk st.to_table rest t

/-- A step list that is moreover realized by edges of the adjacency map. -/
def pathFrom (adj : Adj) : String → List Step → String → Prop
  | s, [], t => s = t
  | s, st :: rest, t => (∃ e ∈ adjEdges adj s, st = mkStep s e) ∧ pathFrom adj st.to_table rest t

/-- Every edge destination is itself a key of the adjacency map.  This is the
RelationshipGraph invariant of the specification (every foreign key contributes
an entry at both endpoints); on a graph violating it the source would raise a
KeyError during traversal. -/
def AdjClosed (adj : Adj) : Prop :=
  ∀ pr ∈ adj, ∀ e ∈ pr.2, adjHasKey adj e.to_table = true

instance : DecidablePred AdjClosed := fun adj =>
  inferInstanceAs (Decidable (∀ pr ∈ adj, ∀ e ∈ pr.2, adjHasKey adj e.to_table = true))

/-! ### The worked example of the specification -/

/-- The foreign key orders.customer_id referencing customers.id. -/
def fkOrdersCustomers : ForeignKey :=
  { constraint_name := "orders_customer_id_fkey", from_table := "orders",
    from_column := "customer_id", to_table := "customers", to_column := "id",
    on_update := "NO ACTION", on_delete := "NO ACTION" }

/-- The foreign key order_items.order_id referencing orders.id. -/
def fkItemsOrders : ForeignKey :=
  { constraint_name := "order_items_order_id_fkey", from_table := "order_items",
    from_column := "order_id", to_table := "orders", to_column := "id",
    on_update := "NO ACTION", on_delete := "NO ACTION" }

/-- The foreign keys of the worked example scenario of the specification. -/
def exampleFks : List ForeignKey := [fkOrdersCustomers, fkItemsOrders]

/-- A concrete column-count oracle for the worked example. -/
def exampleCount : String → Nat := fun _ => 3

/-- The relationship graph of the worked example. -/
def exampleGraph : RelationshipGraph := build_relationship_graph exampleFks exampleCount

/-- The junction-table example of the specification: order_products with
foreign keys to orders and products and three columns. -/
def junctionFks : List ForeignKey :=
  [{ constraint_name := "op_order_fkey", from_table := "order_products",
     from_column := "order_id", to_table := "orders", to_column := "id",
     on_update := "NO ACTION", on_delete := "NO ACTION" },
   { constraint_name := "op_product_fkey", from_table := "order_products",
     from_column := "product_id", to_table := "products", to_column := "id",
     on_update := "NO ACTION", on_delete := "NO ACTION" }]

/-- The BFS queue is graded: a block of entries whose paths share a common
length followed by a block of entries one longer. -/
def Graded (l : Nat) (q : List QEntry) : Prop :=
  ∃ q1 q2, q = q1 ++ q2 ∧ (∀ x ∈ q1, x.2.length = l) ∧ (∀ x ∈ q2, x.2.length = l + 1)

/-! ### Association-list lemmas -/

theorem assocFind_assocAppend {β : Type} (m : List (String × List β)) (k t : String) (v : β) :
    assocFind (assocAppend m k v) t =
      if t = k then assocFind m t ++ [v] else assocFind m t := by
  induction m with
  | nil =>
      by_cases h : t = k
      · subst h; simp [assocAppend, assocFind]
      · have h2 : ¬ (k = t) := fun hh => h hh.symm
        simp [assocAppend, assocFind, h, h2]
  | cons pr rest ih =>
      obtain ⟨k', vs⟩ := pr
      by_cases h1 : k' = k
      · subst h1
        by_cases h2 : t = k'
        · subst h2; simp [assocAppend, assocFind]
        · have h2' : ¬ (k' = t) := fun hh => h2 hh.symm
          simp [assocAppend, assocFind, h2, h2']
      · by_cases h2 : k' = t
        · have h3 : ¬ (t = k) := fun hh => h1 (h2.trans hh)
          simp [assocAppend, assocFind, h1, h2, h3]
        · simp [assocAppend, assocFind, h1, h2, ih]

theorem assocHasKey_iff {β : Type} (m : List (String × List β)) (t : String) :
    assocHasKey m t = true ↔ ∃ pr ∈ m, pr.1 = t := by
  induction m with
  | nil => simp [assocHasKey]
  | cons pr rest ih =>
      obtain ⟨k', vs⟩ := pr
      simp [assocHasKey, ih]

theorem assocFind_eq_of_mem {β : Type} (m : List (String × List β))
    (pr : String × List β) (hnd : (m.map Prod.fst).Nodup) (h : pr ∈ m) :
    assocFind m pr.1 = pr.2 := by
  induction m with
  | nil => simp at h
  | cons hd rest ih =>
      obtain ⟨k', vs⟩ := hd
      simp only [List.map_cons, List.nodup_cons] at hnd
      rcases List.mem_cons.mp h with h | h
      · subst h; simp [assocFind]
      · have hne : ¬ (k' = pr.1) := by
          intro hk
          exact hnd.1 (hk ▸ List.mem_map_of_mem Prod.fst h)
        simp only [assocFind, if_neg hne]
        exact ih hnd.2 h

theorem assocAppend_keys {β : Type} (m : List (String × List β)) (k : String) (v : β) :
    (assocAppend m k v).map Prod.fst =
      if assocHasKey m k then m.map Prod.fst else m.map Prod.fst ++ [k] := by
  induction m with
  | nil => simp [assocAppend, assocHasKey]
  | cons pr rest ih =>
      obtain ⟨k', vs⟩ := pr
      by_cases h1 : k' = k
      · simp [assocAppend, assocHasKey, h1]
      · simp only [assocAppend, if_neg h1, List.map_cons, assocHasKey, ih]
        by_cases h2 : assocHasKey rest k
        · simp [h1, h2]
        · simp [h1, h2]

theorem assocHasKey_eq_false_not_mem {β : Type} (m : List (String × List β)) (t : String)
    (h : assocHasKey m t = false) : t ∉ m.map Prod.fst := by
  intro hc
  obtain ⟨pr, hpr, hfst⟩ := List.mem_map.mp hc
  have := (assocHasKey_iff m t).mpr ⟨pr, hpr, hfst⟩
  rw [h] at this
  exact Bool.false_ne_true this

theorem assocAppend_keys_nodup {β : Type} (m : List (String × List β)) (k : String) (v : β)
    (hnd : (m.map Prod.fst).Nodup) :
    ((assocAppend m k v).map Prod.fst).Nodup := by
  rw [assocAppend_keys]
  by_cases h : assocHasKey m k = true
  · simp [h, hnd]
  · have h2 : assocHasKey m k = false := by simpa using h
    have hnot := assocHasKey_eq_false_not_mem m k h2
    simp [h2, List.nodup_append, hnd, hnot]

theorem assocAppend_mem_cases {β : Type} (m : List (String × List β)) (k : String) (v : β)
    (pr : String × List β) (hnd : (m.map Prod.fst).Nodup) (h : pr ∈ assocAppend m k v) :
    (pr.1 ≠ k ∧ pr ∈ m) ∨ (pr.1 = k ∧ pr.2 = assocFind m k ++ [v]) := by
  induction m with
  | nil =>
      simp only [assocAppend, List.mem_singleton] at h
      subst h
      exact Or.inr ⟨rfl, by simp [assocFind]⟩
  | cons hd rest ih =>
      obtain ⟨k', vs⟩ := hd
      simp only [List.map_cons, List.nodup_cons] at hnd
      by_cases h1 : k' = k
      · subst h1
        simp only [assocAppend, if_pos rfl] at h
        rcases List.mem_cons.mp h with h | h
        · subst h
          exact Or.inr ⟨rfl, by simp [assocFind]⟩
        · refine Or.inl ⟨?_, List.mem_cons_of_mem _ h⟩
          intro hk
          exact hnd.1 (hk ▸ List.mem_map_of_mem Prod.fst h)
      · simp only [assocAppend, if_neg h1] at h
        rcases List.mem_cons.mp h with h | h
        · subst h
          exact Or.inl ⟨h1, List.mem_cons_self _ _⟩
        · rcases ih hnd.2 h with ⟨hne, hmem⟩ | ⟨heq, hval⟩
          · exact Or.inl ⟨hne, List.mem_cons_of_mem _ hmem⟩
          · refine Or.inr ⟨heq, ?_⟩
            rw [hval]
            simp [assocFind, h1]

/-! ### Graph-building lemmas -/

theorem adjEdges_mono_append (adj : Adj) (k k2 : String) (e e2 : Edge)
    (h : e ∈ adjEdges adj k) : e ∈ adjEdges (assocAppend adj k2 e2) k := by
  unfold adjEdges at *
  rw [assocFind_assocAppend]
  by_cases hk : k = k2
  · subst hk; simp [h]
  · simp [hk, h]

theorem adjEdges_mono_foldl (fks : List ForeignKey) (adj : Adj) (k : String) (e : Edge)
    (h : e ∈ adjEdges adj k) : e ∈ adjEdges (fks.foldl addFkEdges adj) k := by
  induction fks generalizing adj with
  | nil => simpa using h
  | cons fk rest ih =>
      simp only [List.foldl_cons]
      exact ih _ (adjEdges_mono_append _ _ _ _ _ (adjEdges_mono_append _ _ _ _ _ h))

theorem addFkEdges_mem_fwd (adj : Adj) (fk : ForeignKey) :
    fwdEdge fk ∈ adjEdges (addFkEdges adj fk) fk.from_table := by
  unfold addFkEdges
  apply adjEdges_mono_append
  unfold adjEdges
  rw [assocFind_assocAppend]
  simp

theorem addFkEdges_mem_rev (adj : Adj) (fk : ForeignKey) :
    revEdge fk ∈ adjEdges (addFkEdges adj fk) fk.to_table := by
  unfold addFkEdges adjEdges
  rw [assocFind_assocAppend]
  simp

theorem buildAdj_aux (fks : List ForeignKey) (adj : Adj) (fk : ForeignKey) (h : fk ∈ fks) :
    fwdEdge fk ∈ adjEdges (fks.foldl addFkEdges adj) fk.from_table ∧
    revEdge fk ∈ adjEdges (fks.foldl addFkEdges adj) fk.to_table := by
  induction fks generalizing adj with
  | nil => simp at h
  | cons hd rest ih =>
      simp only [List.foldl_cons]
      rcases List.mem_cons.mp h with h | h
      · subst h
        exact ⟨adjEdges_mono_foldl _ _ _ _ (addFkEdges_mem_fwd adj fk),
               adjEdges_mono_foldl _ _ _ _ (addFkEdges_mem_rev adj fk)⟩
      · exact ih _ h

/-! ### C2: graph symmetry -/

/-- C2: every ForeignKey from A to B contributes to adjacency[A] an edge to B and
to adjacency[B] a reverse-flagged edge back to A, both carrying the constraint
name of the ForeignKey. -/
theorem build_graph_symmetric (fks : List ForeignKey) (column_count : String → Nat)
    (fk : ForeignKey) (hfk : fk ∈ fks) :
    (∃ e ∈ adjEdges (build_relationship_graph fks column_count).adjacency fk.from_table,
        e.to_table = fk.to_table ∧ e.constraint = fk.constraint_name) ∧
    (∃ e ∈ adjEdges (build_relationship_graph fks column_count).adjacency fk.to_table,
        e.to_table = fk.from_table ∧ e.reverse = true ∧ e.constraint = fk.constraint_name) := by
  obtain ⟨h1, h2⟩ := buildAdj_aux fks [] fk hfk
  exact ⟨⟨fwdEdge fk, h1, rfl, rfl⟩, ⟨revEdge fk, h2, rfl, rfl, rfl⟩⟩

/-- Witness for C2 at the worked example. -/
theorem build_graph_symmetric_witness :
    ∃ e ∈ adjEdges (build_relationship_graph exampleFks exampleCount).adjacency
        fkOrdersCustomers.from_table,
      e.to_table = fkOrdersCustomers.to_table ∧
      e.constraint = fkOrdersCustomers.constraint_name :=
  (build_graph_symmetric exampleFks exampleCount fkOrdersCustomers (by decide)).1

/-! ### C3: same-table path -/

/-- C3 counterexample: find_path checks adjacency-key membership before the
same-table shortcut, so on a graph that does not contain the table the
same-table call returns NOT_FOUND rather than the empty path. -/
theorem find_path_self_counterexample :
    find_path_between_tables (build_relationship_graph [] fun _ => 0) "a" "a" = none ∧
    find_path_between_tables (build_relationship_graph [] fun _ => 0) "a" "a" ≠
      some [] := by
  exact ⟨by decide, by decide⟩

/-- C3 amended: for every table x that is a key of the adjacency map,
find_path(g, x, x) returns the empty path. -/
theorem find_path_self (g : RelationshipGraph) (x : String)
    (hx : adjHasKey g.adjacency x = true) :
    find_path_between_tables g x x = some [] := by
  simp [find_path_between_tables, hx]

/-- Witness for the amended C3 at the worked example. -/
theorem find_path_self_witness :
    adjHasKey exampleGraph.adjacency "orders" = true ∧
    find_path_between_tables exampleGraph "orders" "orders" = some [] :=
  ⟨by decide, find_path_self exampleGraph "orders" (by decide)⟩

/-! ### C4: suggest_join_pattern failure condition -/

/-- C4 counterexample: for a same-table request the Path Finder returns the
empty path, not NOT_FOUND, yet suggest_join_pattern reports found=false,
because the Python truthiness test conflates None with the empty list. -/
theorem suggest_empty_path_counterexample :
    find_path_between_tables exampleGraph "orders" "orders" = some [] ∧
    (suggest_join_pattern exampleGraph "orders" "orders").success = false := by
  exact ⟨by decide, by decide⟩

/-- C4 amended: suggest_join_pattern returns found=false exactly when the Path
Finder returns NOT_FOUND or the empty same-table path; on failure it emits no
SQL and an explanation naming both tables. -/
theorem suggest_found_iff (g : RelationshipGraph) (t1 t2 : String) :
    ((suggest_join_pattern g t1 t2).success = false ↔
      (find_path_between_tables g t1 t2 = none ∨
        find_path_between_tables g t1 t2 = some [])) ∧
    ((suggest_join_pattern g t1 t2).success = false →
      (suggest_join_pattern g t1 t2).sql = none ∧
      (suggest_join_pattern g t1 t2).explanation = noRelationMsg t1 t2) := by
  rcases h : find_path_between_tables g t1 t2 with _ | p
  · simp [suggest_join_pattern, h]
  · cases p with
    | nil => simp [suggest_join_pattern, h]
    | cons s rest => simp [suggest_join_pattern, h]

/-- Witness for the amended C4 at a concrete disconnected pair. -/
theorem suggest_found_iff_witness :
    ((suggest_join_pattern exampleGraph "orders" "missing").success = false ↔
      (find_path_between_tables exampleGraph "orders" "missing" = none ∨
        find_path_between_tables exampleGraph "orders" "missing" = some [])) ∧
    ((suggest_join_pattern exampleGraph "orders" "missing").success = false →
      (suggest_join_pattern exampleGraph "orders" "missing").sql = none ∧
      (suggest_join_pattern exampleGraph "orders" "missing").explanation =
        noRelationMsg "orders" "missing") :=
  suggest_found_iff exampleGraph "orders" "missing"

/-! ### C5: SQL rendering of pairwise suggestions -/

/-- C5: on success with a non-empty path the SQL is the FROM line of the first
step followed by one JOIN line per step in path order; at the worked example
the result is the 2-step path with exactly the specified SQL. -/
theorem suggest_sql_format :
    (∀ (g : RelationshipGraph) (t1 t2 : String),
        (suggest_join_pattern g t1 t2).success = true →
        ∃ s0 rest, (suggest_join_pattern g t1 t2).path = some (s0 :: rest) ∧
          (suggest_join_pattern g t1 t2).sql =
            some (String.intercalate "\n" (("FROM " ++ s0.from_table) ::
              (s0 :: rest).map fun st => "JOIN " ++ st.to_table ++ " ON " ++
                st.from_table ++ "." ++ st.from_column ++ " = " ++
                st.to_table ++ "." ++ st.to_column))) ∧
    (∃ p, (suggest_join_pattern exampleGraph "order_items" "customers").path = some p ∧
      p.length = 2 ∧
      (suggest_join_pattern exampleGraph "order_items" "customers").sql =
        some ("FROM order_items\nJOIN orders ON order_items.order_id = orders.id\nJOIN customers ON orders.customer_id = customers.id")) := by
  constructor
  · intro g t1 t2 hs
    rcases h : find_path_between_tables g t1 t2 with _ | p
    · simp [suggest_join_pattern, h] at hs
    · cases p with
      | nil => simp [suggest_join_pattern, h] at hs
      | cons s rest =>
          refine ⟨s, rest, by simp [suggest_join_pattern, h], ?_⟩
          simp only [suggest_join_pattern, h]
          rfl
  · exact ⟨[⟨"order_items", "orders", "order_id", "id", "order_items_order_id_fkey", false⟩,
            ⟨"orders", "customers", "customer_id", "id", "orders_customer_id_fkey", false⟩],
           by decide, by decide, by decide⟩

/-- Witness for C5 at the worked example. -/
theorem suggest_sql_format_witness :
    ∃ s0 rest,
      (suggest_join_pattern exampleGraph "order_items" "customers").path =
        some (s0 :: rest) ∧
      (suggest_join_pattern exampleGraph "order_items" "customers").sql =
        some (String.intercalate "\n" (("FROM " ++ s0.from_table) ::
          (s0 :: rest).map fun st => "JOIN " ++ st.to_table ++ " ON " ++
            st.from_table ++ "." ++ st.from_column ++ " = " ++
            st.to_table ++ "." ++ st.to_column)) :=
  suggest_sql_format.1 exampleGraph "order_items" "customers" (by decide)

/-! ### C10: duplicate requested table -/

/-- C10: requesting the same table twice makes generate_join_query fail: the
empty same-table path returned by the Path Finder is falsy, so the scan of the
already-joined set finds no usable path, even though the duplicated table is
trivially connected. -/
theorem generate_join_duplicate_target :
    find_path_between_tables exampleGraph "orders" "orders" = some [] ∧
    (generate_join_query exampleGraph ["orders", "orders"] false).success = false ∧
    (generate_join_query exampleGraph ["orders", "orders"] false).explanation =
      "Cannot find path from orders to orders" := by
  exact ⟨by decide, by decide, by decide⟩

/-! ### C7: junction-table classification -/

theorem assocFind_of_not_hasKey {β : Type} (m : List (String × List β)) (t : String)
    (h : assocHasKey m t = false) : assocFind m t = [] := by
  induction m with
  | nil => rfl
  | cons pr rest ih =>
      obtain ⟨k', vs⟩ := pr
      simp only [assocHasKey, Bool.or_eq_false_iff, decide_eq_false_iff_not] at h
      simp only [assocFind, if_neg h.1]
      exact ih h.2

theorem assocHasKey_assocAppend_self {β : Type} (m : List (String × List β))
    (k : String) (v : β) : assocHasKey (assocAppend m k v) k = true := by
  induction m with
  | nil => simp [assocAppend, assocHasKey]
  | cons pr rest ih =>
      obtain ⟨k', vs⟩ := pr
      by_cases h1 : k' = k <;> simp [assocAppend, assocHasKey, h1, ih]

theorem assocHasKey_assocAppend_mono {β : Type} (m : List (String × List β))
    (k t : String) (v : β) (h : assocHasKey m t = true) :
    assocHasKey (assocAppend m k v) t = true := by
  induction m with
  | nil => simp [assocHasKey] at h
  | cons pr rest ih =>
      obtain ⟨k', vs⟩ := pr
      simp only [assocHasKey, Bool.or_eq_true, decide_eq_true_eq] at h
      simp only [assocAppend]
      by_cases h1 : k' = k
      · rw [if_pos h1]
        simp only [assocHasKey, Bool.or_eq_true, decide_eq_true_eq]
        exact h.imp id id
      · rw [if_neg h1]
        simp only [assocHasKey, Bool.or_eq_true, decide_eq_true_eq]
        exact h.imp id ih

/-- The grouping invariant of fk_by_table: keys are distinct, each group is
exactly the in-order sublist of foreign keys owned by its table, and every
owning table appears as a key. -/
theorem fkByTable_spec (fks : List ForeignKey) :
    ((fkByTable fks).map Prod.fst).Nodup ∧
    (∀ pr ∈ fkByTable fks, pr.2 = fks.filter fun f => f.from_table == pr.1) ∧
    (∀ fk ∈ fks, assocHasKey (fkByTable fks) fk.from_table = true) := by
  induction fks using List.reverseRecOn with
  | nil => simp [fkByTable]
  | append_singleton l fk ih =>
      obtain ⟨ihnd, ihgrp, ihkey⟩ := ih
      have hstep : fkByTable (l ++ [fk]) = assocAppend (fkByTable l) fk.from_table fk := by
        simp [fkByTable, List.foldl_append]
      refine ⟨?_, ?_, ?_⟩
      · rw [hstep]; exact assocAppend_keys_nodup _ _ _ ihnd
      · intro pr hpr
        rw [hstep] at hpr
        rcases assocAppend_mem_cases _ _ _ pr ihnd hpr with ⟨hne, hmem⟩ | ⟨heq, hval⟩
        · rw [ihgrp pr hmem, List.filter_append]
          have hb : (fk.from_table == pr.1) = false := by
            simp only [beq_eq_false_iff_ne, ne_eq]
            exact Ne.symm hne
          have : (List.filter (fun f => f.from_table == pr.1) [fk]) = [] := by
            simp [List.filter, hb]
          rw [this, List.append_nil]
        · rw [hval, heq, List.filter_append]
          have hfk : (List.filter (fun f => f.from_table == fk.from_table) [fk]) = [fk] := by
            simp [List.filter]
          rw [hfk]
          congr 1
          by_cases hk : assocHasKey (fkByTable l) fk.from_table = true
          · obtain ⟨pr0, hpr0, hpr0k⟩ := (assocHasKey_iff _ _).mp hk
            have := assocFind_eq_of_mem _ pr0 ihnd hpr0
            rw [hpr0k] at this
            rw [this, ihgrp pr0 hpr0, hpr0k]
          · have hk2 : assocHasKey (fkByTable l) fk.from_table = false := by
              simpa using hk
            rw [assocFind_of_not_hasKey _ _ hk2]
            symm
            rw [List.filter_eq_nil_iff]
            intro f hf
            simp only [beq_iff_eq]
            intro hft
            exact hk ((hft ▸ ihkey f hf))
      · intro fk2 hfk2
        rw [hstep]
        rcases List.mem_append.mp hfk2 with h | h
        · exact assocHasKey_assocAppend_mono _ _ _ _ (ihkey fk2 h)
        · rw [List.mem_singleton.mp h]
          exact assocHasKey_assocAppend_self _ _ _

theorem foldl_append_eq_flatMap {α β : Type} (f : α → List β) (l : List α) (init : List β) :
    l.foldl (fun acc x => acc ++ f x) init = init ++ l.flatMap f := by
  induction l generalizing init with
  | nil => simp
  | cons x rest ih => simp [ih, List.append_assoc]

theorem detect_mem_iff (fks : List ForeignKey) (cc : String → Nat) (c : JunctionCandidate) :
    c ∈ detect_many_to_many fks cc ↔ ∃ pr ∈ fkByTable fks, c ∈ junctionOf cc pr := by
  unfold detect_many_to_many
  rw [foldl_append_eq_flatMap]
  simp

theorem junctionOf_mem (cc : String → Nat) (pr : String × List ForeignKey)
    (c : JunctionCandidate) (h : c ∈ junctionOf cc pr) :
    ∃ f1 f2, pr.2 = [f1, f2] ∧ cc pr.1 ≤ 4 ∧
      c = { junction_table := pr.1,
            table1 := f1.to_table, table1_column := f1.to_column,
            table2 := f2.to_table, table2_column := f2.to_column,
            junction_column1 := f1.from_column, junction_column2 := f2.from_column } := by
  obtain ⟨k, g⟩ := pr
  match g with
  | [] => simp [junctionOf] at h
  | [f1] => simp [junctionOf] at h
  | f1 :: f2 :: f3 :: tl => simp [junctionOf] at h
  | [f1, f2] =>
      simp only [junctionOf] at h
      by_cases hcc : cc k ≤ 4
      · rw [if_pos hcc] at h
        exact ⟨f1, f2, rfl, hcc, List.mem_singleton.mp h⟩
      · rw [if_neg hcc] at h
        simp at h

/-- C7: the classifier emits a junction candidate for t exactly when t owns
exactly two foreign keys and has at most 4 columns; the candidate points at
the two referenced tables in group order. -/
theorem junction_classification (fks : List ForeignKey) (column_count : String → Nat)
    (t : String) :
    ((∃ c ∈ detect_many_to_many fks column_count, c.junction_table = t) ↔
      ((fks.filter fun f => f.from_table == t).length = 2 ∧ column_count t ≤ 4)) ∧
    (∀ c ∈ detect_many_to_many fks column_count, c.junction_table = t →
      ∃ f1 f2, fks.filter (fun f => f.from_table == t) = [f1, f2] ∧
        c.table1 = f1.to_table ∧ c.table2 = f2.to_table) := by
  obtain ⟨hnd, hgrp, hkey⟩ := fkByTable_spec fks
  have fields : ∀ c ∈ detect_many_to_many fks column_count, c.junction_table = t →
      ∃ f1 f2, fks.filter (fun f => f.from_table == t) = [f1, f2] ∧
        c.table1 = f1.to_table ∧ c.table2 = f2.to_table ∧ column_count t ≤ 4 := by
    intro c hc hct
    obtain ⟨pr, hpr, hj⟩ := (detect_mem_iff fks column_count c).mp hc
    obtain ⟨f1, f2, hg, hcc, hcand⟩ := junctionOf_mem column_count pr c hj
    have hprt : pr.1 = t := by rw [hcand] at hct; exact hct
    refine ⟨f1, f2, ?_, by rw [hcand], by rw [hcand], hprt ▸ hcc⟩
    rw [← hprt, ← hgrp pr hpr, hg]
  refine ⟨⟨?_, ?_⟩, fun c hc hct => ?_⟩
  · rintro ⟨c, hc, hct⟩
    obtain ⟨f1, f2, hfil, _, _, hcc⟩ := fields c hc hct
    exact ⟨by rw [hfil]; rfl, hcc⟩
  · rintro ⟨hlen, hcc⟩
    obtain ⟨f1, f2, hfil⟩ := List.length_eq_two.mp hlen
    have hf1 : f1 ∈ fks.filter fun f => f.from_table == t := by rw [hfil]; simp
    have hf1' := List.mem_filter.mp hf1
    have hft : f1.from_table = t := by simpa using hf1'.2
    have hk : assocHasKey (fkByTable fks) t = true := by
      rw [← hft]; exact hkey f1 hf1'.1
    obtain ⟨pr, hpr, hprt⟩ := (assocHasKey_iff _ _).mp hk
    have hg : pr.2 = [f1, f2] := by rw [hgrp pr hpr, hprt, hfil]
    have hjc : junctionOf column_count pr =
        [{ junction_table := pr.1,
           table1 := f1.to_table, table1_column := f1.to_column,
           table2 := f2.to_table, table2_column := f2.to_column,
           junction_column1 := f1.from_column, junction_column2 := f2.from_column }] := by
      obtain ⟨k, g⟩ := pr
      simp only at hg hprt
      subst hg
      simp only [junctionOf]
      rw [if_pos (hprt ▸ hcc)]
    refine ⟨{ junction_table := pr.1,
              table1 := f1.to_table, table1_column := f1.to_column,
              table2 := f2.to_table, table2_column := f2.to_column,
              junction_column1 := f1.from_column, junction_column2 := f2.from_column },
            (detect_mem_iff fks column_count _).mpr ⟨pr, hpr, ?_⟩, hprt⟩
    rw [hjc]; exact List.mem_singleton.mpr rfl
  · obtain ⟨f1, f2, hfil, h1, h2, _⟩ := fields c hc hct
    exact ⟨f1, f2, hfil, h1, h2⟩

/-- Witness for C7 at the junction example (including one use of the inner
implication at its concrete candidate). -/
theorem junction_classification_witness :
    ((∃ c ∈ detect_many_to_many junctionFks (fun _ => 3), c.junction_table = "order_products") ↔
      ((junctionFks.filter fun f => f.from_table == "order_products").length = 2 ∧
        (fun _ : String => 3) "order_products" ≤ 4)) ∧
    (∀ c ∈ detect_many_to_many junctionFks (fun _ => 3), c.junction_table = "order_products" →
      ∃ f1 f2, junctionFks.filter (fun f => f.from_table == "order_products") = [f1, f2] ∧
        c.table1 = f1.to_table ∧ c.table2 = f2.to_table) :=
  junction_classification junctionFks (fun _ => 3) "order_products"

/-! ### C6: deduplication invariant -/

theorem dedupAux_sublist (l : List Step) (seen : List (String × String × String × String)) :
    List.Sublist (dedupAux l seen) l := by
  induction l generalizing seen with
  | nil => simp [dedupAux]
  | cons st rest ih =>
      simp only [dedupAux]
      by_cases h : joinKey st ∈ seen
      · rw [if_pos h]; exact (ih seen).cons _
      · rw [if_neg h]; exact (ih _).cons₂ _

theorem dedupAux_not_mem_seen (l : List Step) (seen : List (String × String × String × String))
    (st : Step) (h : st ∈ dedupAux l seen) : joinKey st ∉ seen := by
  induction l generalizing seen with
  | nil => simp [dedupAux] at h
  | cons hd rest ih =>
      simp only [dedupAux] at h
      by_cases hm : joinKey hd ∈ seen
      · rw [if_pos hm] at h; exact ih seen h
      · rw [if_neg hm] at h
        rcases List.mem_cons.mp h with h | h
        · subst h; exact hm
        · intro hc
          exact ih _ h (List.mem_cons_of_mem _ hc)

theorem dedupAux_pairwise (l : List Step) (seen : List (String × String × String × String)) :
    List.Pairwise (fun a b => joinKey a ≠ joinKey b) (dedupAux l seen) := by
  induction l generalizing seen with
  | nil => simp [dedupAux]
  | cons hd rest ih =>
      simp only [dedupAux]
      by_cases hm : joinKey hd ∈ seen
      · rw [if_pos hm]; exact ih seen
      · rw [if_neg hm]
        refine List.Pairwise.cons ?_ (ih _)
        intro b hb hc
        exact dedupAux_not_mem_seen rest _ b hb (by rw [← hc]; exact List.mem_cons_self _ _)

theorem dedupAux_covers (l : List Step) (seen : List (String × String × String × String))
    (st : Step) (h : st ∈ l) (hs : joinKey st ∉ seen) :
    ∃ st2 ∈ dedupAux l seen, joinKey st2 = joinKey st := by
  induction l generalizing seen with
  | nil => simp at h
  | cons hd rest ih =>
      simp only [dedupAux]
      by_cases hm : joinKey hd ∈ seen
      · rw [if_pos hm]
        rcases List.mem_cons.mp h with h | h
        · exact absurd (h ▸ hm) hs
        · exact ih seen h hs
      · rw [if_neg hm]
        by_cases he : joinKey st = joinKey hd
        · exact ⟨hd, List.mem_cons_self _ _, he.symm⟩
        · rcases List.mem_cons.mp h with h | h
          · exact absurd (congrArg joinKey h) he
          · obtain ⟨st2, h2, hk⟩ :=
              ih (joinKey hd :: seen) h (fun hc => (List.mem_cons.mp hc).elim he hs)
            exact ⟨st2, List.mem_cons_of_mem _ h2, hk⟩

theorem generate_join_success_paths (g : RelationshipGraph) (tables : List String)
    (sa : Bool) (h : (generate_join_query g tables sa).success = true) :
    ∃ base t1 ts acc, tables = base :: t1 :: ts ∧
      joinLoop g base (t1 :: ts) [] [base] = Sum.inr acc ∧
      (generate_join_query g tables sa).paths = dedupJoins acc := by
  match tables with
  | [] => simp [generate_join_query] at h
  | [b] => simp [generate_join_query] at h
  | base :: t1 :: ts =>
      match hl : joinLoop g base (t1 :: ts) [] [base] with
      | Sum.inl (msg, acc) => simp [generate_join_query, hl] at h
      | Sum.inr acc =>
          exact ⟨base, t1, ts, acc, rfl, hl, by simp [generate_join_query, hl]⟩

/-- C6: the join list of a successful generate_join_query has pairwise-distinct
(from_table, to_table, from_column, to_column) keys, is a sublist of the
accumulated steps, preserving their first-occurrence order, and retains a
representative of every accumulated key. -/
theorem generate_join_dedup (g : RelationshipGraph) (tables : List String) (sa : Bool)
    (h : (generate_join_query g tables sa).success = true) :
    List.Pairwise (fun a b => joinKey a ≠ joinKey b)
      (generate_join_query g tables sa).paths ∧
    ∃ base t1 ts acc, tables = base :: t1 :: ts ∧
      joinLoop g base (t1 :: ts) [] [base] = Sum.inr acc ∧
      (generate_join_query g tables sa).paths = dedupJoins acc ∧
      List.Sublist (generate_join_query g tables sa).paths acc ∧
      ∀ st ∈ acc, ∃ st2 ∈ (generate_join_query g tables sa).paths,
        joinKey st2 = joinKey st := by
  obtain ⟨base, t1, ts, acc, htab, hl, hp⟩ := generate_join_success_paths g tables sa h
  refine ⟨by rw [hp]; exact dedupAux_pairwise acc [], base, t1, ts, acc, htab, hl, hp, ?_, ?_⟩
  · rw [hp]; exact dedupAux_sublist acc []
  · intro st hst
    rw [hp]
    exact dedupAux_covers acc [] st hst (by simp)

/-- Witness for C6 at the worked example. -/
theorem generate_join_dedup_witness :
    (generate_join_query exampleGraph ["order_items", "customers"] false).success = true ∧
    List.Pairwise (fun a b => joinKey a ≠ joinKey b)
      (generate_join_query exampleGraph ["order_items", "customers"] false).paths :=
  ⟨by decide,
   (generate_join_dedup exampleGraph ["order_items", "customers"] false (by decide)).1⟩

/-! ### BFS queue invariants -/

theorem Graded_head_min (l : Nat) (x : QEntry) (q : List QEntry) (h : Graded l (x :: q)) :
    ∀ y ∈ x :: q, x.2.length ≤ y.2.length := by
  obtain ⟨q1, q2, heq, h1, h2⟩ := h
  cases q1 with
  | nil =>
      simp only [List.nil_append] at heq
      intro y hy
      rw [h2 x (heq ▸ List.mem_cons_self _ _), h2 y (heq ▸ hy)]
  | cons z q1t =>
      rw [List.cons_append] at heq
      have hinj := List.cons.inj heq
      have hx : x.2.length = l := by
        rw [hinj.1]; exact h1 z (List.mem_cons_self _ _)
      intro y hy
      rcases List.mem_cons.mp hy with rfl | hy2
      · exact le_rfl
      · rw [hinj.2] at hy2
        rw [hx]
        rcases List.mem_append.mp hy2 with hy3 | hy3
        · rw [h1 y (List.mem_cons_of_mem _ hy3)]
        · rw [h2 y hy3]; omega

theorem Graded_bound (l : Nat) (x : QEntry) (q : List QEntry) (h : Graded l (x :: q)) :
    ∀ y ∈ x :: q, y.2.length ≤ x.2.length + 1 := by
  obtain ⟨q1, q2, heq, h1, h2⟩ := h
  cases q1 with
  | nil =>
      simp only [List.nil_append] at heq
      intro y hy
      rw [h2 x (heq ▸ List.mem_cons_self _ _), h2 y (heq ▸ hy)]
      omega
  | cons z q1t =>
      rw [List.cons_append] at heq
      have hinj := List.cons.inj heq
      have hx : x.2.length = l := by
        rw [hinj.1]; exact h1 z (List.mem_cons_self _ _)
      intro y hy
      rcases List.mem_cons.mp hy with rfl | hy2
      · omega
      · rw [hinj.2] at hy2
        rw [hx]
        rcases List.mem_append.mp hy2 with hy3 | hy3
        · rw [h1 y (List.mem_cons_of_mem _ hy3)]; omega
        · rw [h2 y hy3]

theorem Graded_step (l : Nat) (t : String) (p : List Step) (rest news : List QEntry)
    (h : Graded l ((t, p) :: rest))
    (hnews : ∀ x ∈ news, x.2.length = p.length + 1) :
    ∃ l2, Graded l2 (rest ++ news) := by
  obtain ⟨q1, q2, heq, h1, h2⟩ := h
  cases q1 with
  | nil =>
      simp only [List.nil_append] at heq
      have hp : p.length = l + 1 := h2 (t, p) (heq ▸ List.mem_cons_self _ _)
      refine ⟨l + 1, rest, news, rfl, ?_, ?_⟩
      · intro x hx
        exact h2 x (heq ▸ List.mem_cons_of_mem _ hx)
      · intro x hx
        rw [hnews x hx, hp]
  | cons z q1t =>
      rw [List.cons_append] at heq
      obtain ⟨hz, hrest⟩ := List.cons.inj heq
      have hp : p.length = l := by
        have := h1 z (List.mem_cons_self _ _)
        rw [← hz] at this
        exact this
      refine ⟨l, q1t, q2 ++ news, by rw [hrest, List.append_assoc], ?_, ?_⟩
      · intro x hx
        exact h1 x (List.mem_cons_of_mem _ hx)
      · intro x hx
        rcases List.mem_append.mp hx with hx | hx
        · exact h2 x hx
        · rw [hnews x hx, hp]

/-! ### processEdges specifications -/

theorem processEdges_inl (endT t : String) (p : List Step) (es : List Edge)
    (q : List QEntry) (vis : Finset String) (found : List Step)
    (h : processEdges endT t p es q vis = Sum.inl found) :
    ∃ e ∈ es, e.to_table = endT ∧ e.to_table ∉ vis ∧ found = p ++ [mkStep t e] := by
  induction es generalizing q vis with
  | nil => simp [processEdges] at h
  | cons e rest ih =>
      simp only [processEdges] at h
      by_cases h1 : e.to_table ∈ vis
      · rw [if_pos h1] at h
        obtain ⟨e2, he2, h2⟩ := ih q vis h
        exact ⟨e2, List.mem_cons_of_mem _ he2, h2⟩
      · rw [if_neg h1] at h
        by_cases h2 : e.to_table = endT
        · rw [if_pos h2] at h
          exact ⟨e, List.mem_cons_self _ _, h2, h1, (Sum.inl.inj h).symm⟩
        · rw [if_neg h2] at h
          obtain ⟨e2, he2, ha, hb, hc⟩ := ih _ _ h
          exact ⟨e2, List.mem_cons_of_mem _ he2, ha,
            fun hv => hb (Finset.mem_insert_of_mem hv), hc⟩

theorem processEdges_inr (endT t : String) (p : List Step) (es : List Edge)
    (q : List QEntry) (vis : Finset String) (q' : List QEntry) (vis' : Finset String)
    (h : processEdges endT t p es q vis = Sum.inr (q', vis')) :
    ∃ news : List QEntry,
      q' = q ++ news ∧
      vis ⊆ vis' ∧
      vis'.card = vis.card + news.length ∧
      (∀ x ∈ news, ∃ e ∈ es, x.1 = e.to_table ∧ x.2 = p ++ [mkStep t e] ∧
        x.1 ∉ vis ∧ x.1 ∈ vis') ∧
      (∀ u ∈ vis', u ∈ vis ∨ ∃ pu, (u, pu) ∈ news) ∧
      (endT ∉ vis → endT ∉ vis') ∧
      (∀ e ∈ es, e.to_table ∈ vis') := by
  induction es generalizing q vis with
  | nil =>
      simp only [processEdges] at h
      obtain ⟨rfl, rfl⟩ := Prod.mk.inj (Sum.inr.inj h)
      exact ⟨[], by simp, Finset.Subset.refl _, by simp, by simp, fun u hu => Or.inl hu,
        fun h2 => h2, by simp⟩
  | cons e rest ih =>
      simp only [processEdges] at h
      by_cases h1 : e.to_table ∈ vis
      · rw [if_pos h1] at h
        obtain ⟨news, hq, hsub, hcard, hnews, hvis, hend, hall⟩ := ih q vis h
        refine ⟨news, hq, hsub, hcard, ?_, ?_, hend, ?_⟩
        · intro x hx
          obtain ⟨e2, he2, hr⟩ := hnews x hx
          exact ⟨e2, List.mem_cons_of_mem _ he2, hr⟩
        · exact hvis
        · intro e2 he2
          rcases List.mem_cons.mp he2 with rfl | he2
          · exact hsub h1
          · exact hall e2 he2
      · rw [if_neg h1] at h
        by_cases h2 : e.to_table = endT
        · rw [if_pos h2] at h
          exact absurd h (by simp)
        · rw [if_neg h2] at h
          obtain ⟨news, hq, hsub, hcard, hnews, hvis, hend, hall⟩ := ih _ _ h
          refine ⟨(e.to_table, p ++ [mkStep t e]) :: news, ?_, ?_, ?_, ?_, ?_, ?_, ?_⟩
          · rw [hq]; simp
          · exact fun u hu => hsub (Finset.mem_insert_of_mem hu)
          · rw [hcard, Finset.card_insert_of_not_mem h1, List.length_cons]
            omega
          · intro x hx
            rcases List.mem_cons.mp hx with rfl | hx
            · exact ⟨e, List.mem_cons_self _ _, rfl, rfl, h1,
                hsub (Finset.mem_insert_self _ _)⟩
            · obtain ⟨e2, he2, hx1, hx2, hx3, hx4⟩ := hnews x hx
              exact ⟨e2, List.mem_cons_of_mem _ he2, hx1, hx2,
                fun hv => hx3 (Finset.mem_insert_of_mem hv), hx4⟩
          · intro u hu
            rcases hvis u hu with hu2 | ⟨pu, hpu⟩
            · rcases Finset.mem_insert.mp hu2 with hu3 | hu3
              · exact Or.inr ⟨p ++ [mkStep t e], by rw [hu3]; exact List.mem_cons_self _ _⟩
              · exact Or.inl hu3
            · exact Or.inr ⟨pu, List.mem_cons_of_mem _ hpu⟩
          · intro hv
            apply hend
            intro hc
            rcases Finset.mem_insert.mp hc with hc | hc
            · exact h2 hc.symm
            · exact hv hc
          · intro e2 he2
            rcases List.mem_cons.mp he2 with rfl | he2
            · exact hsub (Finset.mem_insert_self _ _)
            · exact hall e2 he2

/-! ### Path well-formedness lemmas -/

theorem pathFrom_append (adj : Adj) (s t : String) (p : List Step) (e : Edge)
    (hp : pathFrom adj s p t) (he : e ∈ adjEdges adj t) :
    pathFrom adj s (p ++ [mkStep t e]) e.to_table := by
  induction p generalizing s with
  | nil =>
      obtain rfl : s = t := hp
      exact ⟨⟨e, he, rfl⟩, rfl⟩
  | cons st rest ih =>
      obtain ⟨hst, hrest⟩ := hp
      exact ⟨hst, ih _ hrest⟩

theorem pathFrom_chainOk (adj : Adj) (s : String) (p : List Step) (t : String)
    (h : pathFrom adj s p t) : chainOk s p t = true := by
  induction p generalizing s with
  | nil =>
      obtain rfl : s = t := h
      simp [chainOk]
  | cons st rest ih =>
      obtain ⟨⟨e, _, he⟩, hrest⟩ := h
      have hfrom : st.from_table = s := by rw [he]; rfl
      simp [chainOk, hfrom, ih _ hrest]

theorem chainOk_getLast (s : String) (p : List Step) (t : String)
    (h : chainOk s p t = true) : ∀ sl ∈ p.getLast?, sl.to_table = t := by
  induction p generalizing s with
  | nil => simp
  | cons st rest ih =>
      simp only [chainOk, Bool.and_eq_true, decide_eq_true_eq] at h
      cases rest with
      | nil =>
          intro sl hsl
          simp only [List.getLast?_singleton, Option.mem_def, Option.some.injEq] at hsl
          subst hsl
          simpa [chainOk] using h.2
      | cons st2 rest2 =>
          intro sl hsl
          rw [List.getLast?_cons_cons] at hsl
          exact ih _ h.2 sl hsl

theorem pathFrom_exists_to (adj : Adj) (j t : String) (s0 : Step) (p : List Step)
    (h : pathFrom adj j (s0 :: p) t) : ∃ st ∈ s0 :: p, st.to_table = t := by
  induction p generalizing j s0 with
  | nil => exact ⟨s0, List.mem_cons_self _ _, h.2⟩
  | cons s1 rest ih =>
      obtain ⟨_, h2⟩ := h
      obtain ⟨st, hst, hto⟩ := ih _ _ h2
      exact ⟨st, List.mem_cons_of_mem _ hst, hto⟩

/-! ### BFS soundness -/

theorem bfs_sound (adj : Adj) (endT start : String) :
    ∀ (fuel : Nat) (q : List QEntry) (vis : Finset String) (res : List Step),
      (∀ x ∈ q, pathFrom adj start x.2 x.1) →
      (∀ x ∈ q, (x.2.map Step.to_table).Nodup ∧ ∀ d ∈ x.2.map Step.to_table, d ∈ vis) →
      endT ∉ vis →
      bfsAux adj endT fuel q vis = some res →
      pathFrom adj start res endT ∧ (res.map Step.to_table).Nodup := by
  intro fuel
  induction fuel with
  | zero =>
      intro q vis res _ _ _ h
      simp [bfsAux] at h
  | succ fuel ih =>
      intro q vis res hpath hdest hend h
      match q with
      | [] => simp [bfsAux] at h
      | (t, p) :: rest =>
          simp only [bfsAux] at h
          match hpe : processEdges endT t p (adjEdges adj t) rest vis with
          | Sum.inl found =>
              rw [hpe] at h
              obtain rfl : found = res := Option.some.inj h
              obtain ⟨e, he, heq, hnv, hf⟩ :=
                processEdges_inl endT t p (adjEdges adj t) rest vis found hpe
              subst hf
              constructor
              · rw [← heq]
                exact pathFrom_append adj start t p e (hpath _ (List.mem_cons_self _ _)) he
              · obtain ⟨hnd, hsubvis⟩ := hdest _ (List.mem_cons_self _ _)
                rw [List.map_append]
                simp only [List.map_cons, List.map_nil]
                rw [List.nodup_append]
                refine ⟨hnd, List.nodup_singleton _, ?_⟩
                intro d hd
                simp only [List.mem_singleton]
                intro hc
                have hde : d = e.to_table := hc
                exact hnv (hde ▸ hsubvis d hd)
          | Sum.inr qv =>
              rw [hpe] at h
              obtain ⟨q', vis'⟩ := qv
              obtain ⟨news, hq, hsub, _, hnews, _, hendp, _⟩ :=
                processEdges_inr endT t p (adjEdges adj t) rest vis q' vis' hpe
              refine ih q' vis' res ?_ ?_ (hendp hend) h
              · intro x hx
                rw [hq] at hx
                rcases List.mem_append.mp hx with hx | hx
                · exact hpath x (List.mem_cons_of_mem _ hx)
                · obtain ⟨e, he, hx1, hx2, _, _⟩ := hnews x hx
                  rw [hx2, hx1]
                  exact pathFrom_append adj start t p e
                    (hpath _ (List.mem_cons_self _ _)) he
              · intro x hx
                rw [hq] at hx
                rcases List.mem_append.mp hx with hx | hx
                · obtain ⟨hnd, hs⟩ := hdest x (List.mem_cons_of_mem _ hx)
                  exact ⟨hnd, fun d hd => hsub (hs d hd)⟩
                · obtain ⟨e, he, hx1, hx2, hx3, hx4⟩ := hnews x hx
                  obtain ⟨hnd, hs⟩ := hdest _ (List.mem_cons_self _ _)
                  rw [hx2]
                  rw [List.map_append]
                  simp only [List.map_cons, List.map_nil]
                  constructor
                  · rw [List.nodup_append]
                    refine ⟨hnd, List.nodup_singleton _, ?_⟩
                    intro d hd
                    simp only [List.mem_singleton]
                    intro hc
                    have hde : d = e.to_table := hc
                    have hv1 : e.to_table ∈ vis := hde ▸ hs d hd
                    have hv2 : e.to_table ∉ vis := hx1 ▸ hx3
                    exact hv2 hv1
                  · intro d hd
                    rcases List.mem_append.mp hd with hd | hd
                    · exact hsub (hs d hd)
                    · rw [List.mem_singleton.mp hd]
                      show e.to_table ∈ vis'
                      exact hx1 ▸ hx4

/-! ### BFS completeness and the shortest-path bound -/

theorem bfs_cross (adj : Adj) (endT : String) (q : List QEntry) (vis : Finset String)
    (L : Nat)
    (hclos : ∀ u ∈ vis, (∃ pu, (u, pu) ∈ q) ∨ ∀ e ∈ adjEdges adj u, e.to_table ∈ vis)
    (hend : endT ∉ vis)
    (hL : ∀ x ∈ q, x.2.length ≤ L) :
    ∀ (c : Nat) (w : String), w ∈ vis → reachesNb adj w endT c = true →
      ∃ x ∈ q, ∃ b, reachesNb adj x.1 endT b = true ∧ x.2.length + b ≤ L + c := by
  intro c
  induction c with
  | zero =>
      intro w hw hr
      have hwe : w = endT := by simpa [reachesNb] using hr
      exact absurd (hwe ▸ hw) hend
  | succ c ih =>
      intro w hw hr
      rcases hclos w hw with ⟨pw, hpw⟩ | hexp
      · refine ⟨(w, pw), hpw, c + 1, hr, ?_⟩
        have := hL (w, pw) hpw
        simp only at this ⊢
        omega
      · simp only [reachesNb, List.any_eq_true] at hr
        obtain ⟨e, he, hre⟩ := hr
        obtain ⟨x, hx, b, hrb, hle⟩ := ih e.to_table (hexp e he) hre
        exact ⟨x, hx, b, hrb, by omega⟩

theorem bfs_complete (adj : Adj) (endT : String) (U : Finset String) (K : Nat)
    (hU : ∀ t, ∀ e ∈ adjEdges adj t, e.to_table ∈ U) :
    ∀ (fuel : Nat) (q : List QEntry) (vis : Finset String) (l : Nat),
      (∀ x ∈ q, x.1 ∈ vis) →
      endT ∉ vis →
      (∀ u ∈ vis, (∃ pu, (u, pu) ∈ q) ∨ ∀ e ∈ adjEdges adj u, e.to_table ∈ vis) →
      Graded l q →
      vis ⊆ U →
      q.length + (U.card - vis.card) < fuel →
      (∃ x ∈ q, ∃ b, reachesNb adj x.1 endT b = true ∧ x.2.length + b ≤ K) →
      ∃ res, bfsAux adj endT fuel q vis = some res ∧ res.length ≤ K := by
  intro fuel
  induction fuel with
  | zero =>
      intro q vis l _ _ _ _ _ hf _
      omega
  | succ fuel ih =>
      intro q vis l hqvis hend hclos hgr hvU hf hw
      match q with
      | [] =>
          obtain ⟨x, hx, _⟩ := hw
          simp at hx
      | (t, p) :: rest =>
          simp only [bfsAux]
          match hpe : processEdges endT t p (adjEdges adj t) rest vis with
          | Sum.inl found =>
              simp only [hpe]
              obtain ⟨e, he, hetl, _, hfound⟩ :=
                processEdges_inl endT t p (adjEdges adj t) rest vis found hpe
              refine ⟨found, rfl, ?_⟩
              obtain ⟨x0, hx0, b0, hr0, hb0⟩ := hw
              have hb0pos : 1 ≤ b0 := by
                rcases Nat.eq_zero_or_pos b0 with rfl | hpos
                · have hx0e : x0.1 = endT := by simpa [reachesNb] using hr0
                  exact absurd (hx0e ▸ hqvis x0 hx0) hend
                · exact hpos
              have hmin := Graded_head_min l (t, p) rest hgr x0 hx0
              rw [hfound]
              simp only [List.length_append, List.length_cons, List.length_nil] at *
              omega
          | Sum.inr qv =>
              obtain ⟨q', vis'⟩ := qv
              simp only [hpe]
              obtain ⟨news, hq, hsub, hcard, hnews, hvis2, hendp, hall⟩ :=
                processEdges_inr endT t p (adjEdges adj t) rest vis q' vis' hpe
              have hnewlen : ∀ x ∈ news, x.2.length = p.length + 1 := by
                intro x hx
                obtain ⟨e, _, _, hx2, _, _⟩ := hnews x hx
                rw [hx2]; simp
              have hqvis' : ∀ x ∈ q', x.1 ∈ vis' := by
                intro x hx
                rw [hq] at hx
                rcases List.mem_append.mp hx with hx | hx
                · exact hsub (hqvis x (List.mem_cons_of_mem _ hx))
                · obtain ⟨e, _, _, _, _, hx4⟩ := hnews x hx
                  exact hx4
              have hend' : endT ∉ vis' := hendp hend
              have hclos' : ∀ u ∈ vis', (∃ pu, (u, pu) ∈ q') ∨
                  ∀ e ∈ adjEdges adj u, e.to_table ∈ vis' := by
                intro u hu
                by_cases hut : u = t
                · subst hut
                  exact Or.inr fun e he => hall e he
                · rcases hvis2 u hu with hu2 | ⟨pu, hpu⟩
                  · rcases hclos u hu2 with ⟨pu, hpu⟩ | hexp
                    · rcases List.mem_cons.mp hpu with heq | hpu2
                      · exact absurd (congrArg Prod.fst heq) hut
                      · exact Or.inl ⟨pu, hq ▸ List.mem_append_left _ hpu2⟩
                    · exact Or.inr fun e2 he2 => hsub (hexp e2 he2)
                  · exact Or.inl ⟨pu, hq ▸ List.mem_append_right _ hpu⟩
              have hvU' : vis' ⊆ U := by
                intro u hu
                rcases hvis2 u hu with hu2 | ⟨pu, hpu⟩
                · exact hvU hu2
                · obtain ⟨e, he, hx1, _, _, _⟩ := hnews (u, pu) hpu
                  have hue : u = e.to_table := hx1
                  rw [hue]
                  exact hU t e he
              obtain ⟨l2, hgr'⟩ := Graded_step l t p rest news hgr hnewlen
              have hlen : q'.length = rest.length + news.length := by rw [hq]; simp
              have hcardUB : vis'.card ≤ U.card := Finset.card_le_card hvU'
              have hf' : q'.length + (U.card - vis'.card) < fuel := by
                simp only [List.length_cons] at hf
                omega
              obtain ⟨x0, hx0, b0, hr0, hb0⟩ := hw
              have hLq' : ∀ x ∈ q', x.2.length ≤ p.length + 1 := by
                intro x hx
                rw [hq] at hx
                rcases List.mem_append.mp hx with hx | hx
                · exact Graded_bound l (t, p) rest hgr x (List.mem_cons_of_mem _ hx)
                · rw [hnewlen x hx]
              have hw' : ∃ x ∈ q', ∃ b, reachesNb adj x.1 endT b = true ∧
                  x.2.length + b ≤ K := by
                rcases List.mem_cons.mp hx0 with heq | hx0r
                · subst heq
                  have hb0K : p.length + b0 ≤ K := hb0
                  have hr0t : reachesNb adj t endT b0 = true := hr0
                  have hb0pos : 1 ≤ b0 := by
                    rcases Nat.eq_zero_or_pos b0 with rfl | hpos
                    · have hte : t = endT := by simpa [reachesNb] using hr0t
                      exact absurd (hte ▸ hqvis _ (List.mem_cons_self _ _)) hend
                    · exact hpos
                  obtain ⟨b1, rfl⟩ : ∃ b1, b0 = b1 + 1 :=
                    ⟨b0 - 1, by omega⟩
                  simp only [reachesNb, List.any_eq_true] at hr0t
                  obtain ⟨e, he, hre⟩ := hr0t
                  have hev : e.to_table ∈ vis' := hall e he
                  obtain ⟨x1, hx1, b2, hrb2, hle2⟩ :=
                    bfs_cross adj endT q' vis' (p.length + 1) hclos' hend' hLq'
                      b1 e.to_table hev hre
                  exact ⟨x1, hx1, b2, hrb2, by omega⟩
                · exact ⟨x0, hq ▸ List.mem_append_left _ hx0r, b0, hr0, hb0⟩
              exact ih q' vis' l2 hqvis' hend' hclos' (hq ▸ hgr') hvU' hf' hw'

theorem destList_mem (adj : Adj) (t : String) (e : Edge) (he : e ∈ adjEdges adj t) :
    e.to_table ∈ destList adj := by
  unfold adjEdges at he
  induction adj with
  | nil => simp [assocFind] at he
  | cons pr rest ih =>
      obtain ⟨k, vs⟩ := pr
      simp only [assocFind] at he
      simp only [destList, List.flatMap_cons, List.mem_append]
      by_cases h1 : k = t
      · rw [if_pos h1] at he
        exact Or.inl (List.mem_map_of_mem Edge.to_table he)
      · rw [if_neg h1] at he
        exact Or.inr (ih he)

/-! ### C1: the shortest-path guarantee -/

/-- C1: on a relationship graph (whose adjacency map is closed, as guaranteed
by the builder) with both endpoints present as keys, whenever a path of k
edges connects start to end through the adjacency lists, find_path returns a
path of at most k steps. -/
theorem find_path_shortest (g : RelationshipGraph) (start_table end_table : String)
    (k : Nat)
    (hclosed : AdjClosed g.adjacency)
    (hs : adjHasKey g.adjacency start_table = true)
    (ht : adjHasKey g.adjacency end_table = true)
    (hreach : reachesNb g.adjacency start_table end_table k = true) :
    ∃ p, find_path_between_tables g start_table end_table = some p ∧ p.length ≤ k := by
  by_cases hst : start_table = end_table
  · refine ⟨[], ?_, by simp⟩
    rw [hst]
    exact find_path_self g end_table ht
  · have hkey : ¬ (adjHasKey g.adjacency start_table = false ∨
        adjHasKey g.adjacency end_table = false) := by
      simp [hs, ht]
    have hU : ∀ t, ∀ e ∈ adjEdges g.adjacency t,
        e.to_table ∈ insert start_table (destList g.adjacency).toFinset := by
      intro t e he
      exact Finset.mem_insert_of_mem (List.mem_toFinset.mpr (destList_mem _ _ _ he))
    have hcard : (insert start_table (destList g.adjacency).toFinset).card ≤
        (destList g.adjacency).toFinset.card + 1 := Finset.card_insert_le _ _
    have hscard : ({start_table} : Finset String).card = 1 := Finset.card_singleton _
    have hmem : start_table ∈ insert start_table (destList g.adjacency).toFinset :=
      Finset.mem_insert_self _ _
    have hpos : 1 ≤ (insert start_table (destList g.adjacency).toFinset).card :=
      Finset.card_pos.mpr ⟨start_table, hmem⟩
    obtain ⟨res, hres, hlen⟩ := bfs_complete g.adjacency end_table
      (insert start_table (destList g.adjacency).toFinset) k hU
      (bfsFuel g.adjacency) [(start_table, [])] {start_table} 0
      (by intro x hx; rw [List.mem_singleton.mp hx]; exact Finset.mem_singleton_self _)
      (by
        intro hc
        exact hst ((Finset.mem_singleton.mp hc).symm))
      (by
        intro u hu
        exact Or.inl ⟨[], by rw [Finset.mem_singleton.mp hu]; exact List.mem_cons_self _ _⟩)
      ⟨[(start_table, [])], [], by simp, by simp, by simp⟩
      (by
        intro u hu
        rw [Finset.mem_singleton.mp hu]
        exact hmem)
      (by
        simp only [List.length_singleton, hscard, bfsFuel]
        omega)
      ⟨(start_table, []), List.mem_cons_self _ _, k, hreach, by simp⟩
    refine ⟨res, ?_, hlen⟩
    simp only [find_path_between_tables, if_neg hkey, if_neg hst]
    exact hres

/-- Witness for C1 at the worked example: a 2-edge path from order_items to
customers exists, and find_path returns a path of at most 2 steps. -/
theorem find_path_shortest_witness :
    ∃ p, find_path_between_tables exampleGraph "order_items" "customers" = some p ∧
      p.length ≤ 2 :=
  find_path_shortest exampleGraph "order_items" "customers" 2
    (by decide) (by decide) (by decide) (by decide)

/-! ### C9: well-formedness of returned paths -/

theorem find_path_pathFrom (g : RelationshipGraph) (j t : String) (p : List Step)
    (hp : find_path_between_tables g j t = some p) : pathFrom g.adjacency j p t := by
  simp only [find_path_between_tables] at hp
  by_cases hkey : adjHasKey g.adjacency j = false ∨ adjHasKey g.adjacency t = false
  · rw [if_pos hkey] at hp
    exact absurd hp (by simp)
  · rw [if_neg hkey] at hp
    by_cases hjt : j = t
    · rw [if_pos hjt] at hp
      obtain rfl : ([] : List Step) = p := Option.some.inj hp
      exact hjt
    · rw [if_neg hjt] at hp
      exact (bfs_sound g.adjacency t j (bfsFuel g.adjacency) [(j, [])] {j} p
        (by intro x hx; rw [List.mem_singleton.mp hx]; exact rfl)
        (by intro x hx; rw [List.mem_singleton.mp hx]; exact ⟨List.nodup_nil, by simp⟩)
        (fun hc => hjt (Finset.mem_singleton.mp hc).symm)
        hp).1

theorem find_path_dest_nodup (g : RelationshipGraph) (j t : String) (p : List Step)
    (hjt : j ≠ t) (hp : find_path_between_tables g j t = some p) :
    (p.map Step.to_table).Nodup := by
  simp only [find_path_between_tables] at hp
  by_cases hkey : adjHasKey g.adjacency j = false ∨ adjHasKey g.adjacency t = false
  · rw [if_pos hkey] at hp
    exact absurd hp (by simp)
  · rw [if_neg hkey, if_neg hjt] at hp
    exact (bfs_sound g.adjacency t j (bfsFuel g.adjacency) [(j, [])] {j} p
      (by intro x hx; rw [List.mem_singleton.mp hx]; exact rfl)
      (by intro x hx; rw [List.mem_singleton.mp hx]; exact ⟨List.nodup_nil, by simp⟩)
      (fun hc => hjt (Finset.mem_singleton.mp hc).symm)
      hp).2

/-- C9: a non-empty path returned for distinct endpoints is well-formed: the
first step leaves start, consecutive steps are chained, the last step arrives
at end (all expressed by chainOk), and no table is the destination of two
different steps. -/
theorem find_path_wellformed (g : RelationshipGraph) (start_table end_table : String)
    (p : List Step)
    (hclosed : AdjClosed g.adjacency)
    (hne : start_table ≠ end_table)
    (hp : find_path_between_tables g start_table end_table = some p)
    (hnil : p ≠ []) :
    chainOk start_table p end_table = true ∧
    (p.map Step.to_table).Nodup ∧
    (∀ s0 ∈ p.head?, s0.from_table = start_table) ∧
    (∀ sl ∈ p.getLast?, sl.to_table = end_table) := by
  have hpf := find_path_pathFrom g start_table end_table p hp
  have hchain := pathFrom_chainOk _ _ _ _ hpf
  refine ⟨hchain, find_path_dest_nodup g _ _ p hne hp, ?_, chainOk_getLast _ _ _ hchain⟩
  intro s0 hs0
  match p, hs0 with
  | s0p :: rest, hs0 =>
      obtain rfl : s0p = s0 := by simpa using hs0
      obtain ⟨⟨e, _, he⟩, _⟩ := hpf
      rw [he]
      rfl

/-- Witness for C9 at the worked example path. -/
theorem find_path_wellformed_witness :
    chainOk "order_items"
      [⟨"order_items", "orders", "order_id", "id", "order_items_order_id_fkey", false⟩,
       ⟨"orders", "customers", "customer_id", "id", "orders_customer_id_fkey", false⟩]
      "customers" = true ∧
    (([⟨"order_items", "orders", "order_id", "id", "order_items_order_id_fkey", false⟩,
       ⟨"orders", "customers", "customer_id", "id", "orders_customer_id_fkey", false⟩] :
        List Step).map Step.to_table).Nodup ∧
    (∀ s0 ∈ ([⟨"order_items", "orders", "order_id", "id", "order_items_order_id_fkey", false⟩,
       ⟨"orders", "customers", "customer_id", "id", "orders_customer_id_fkey", false⟩] :
        List Step).head?, s0.from_table = "order_items") ∧
    (∀ sl ∈ ([⟨"order_items", "orders", "order_id", "id", "order_items_order_id_fkey", false⟩,
       ⟨"orders", "customers", "customer_id", "id", "orders_customer_id_fkey", false⟩] :
        List Step).getLast?, sl.to_table = "customers") :=
  find_path_wellformed exampleGraph "order_items" "customers" _
    (by decide) (by decide) (by decide) (by decide)

/-! ### C8: unreachable targets in generate_join_query -/

theorem firstTruthy_some (g : RelationshipGraph) :
    ∀ (joined : List String) (t : String) (p : List Step),
      firstTruthy g joined t = some p →
      ∃ j ∈ joined, find_path_between_tables g j t = some p ∧ p ≠ [] := by
  intro joined
  induction joined with
  | nil =>
      intro t p h
      simp [firstTruthy] at h
  | cons j rest ih =>
      intro t p h
      simp only [firstTruthy] at h
      match hf : find_path_between_tables g j t with
      | some (s :: p2) =>
          rw [hf] at h
          obtain rfl : s :: p2 = p := Option.some.inj h
          exact ⟨j, List.mem_cons_self _ _, hf, by simp⟩
      | some [] =>
          rw [hf] at h
          obtain ⟨j2, hj2, hfp, hne⟩ := ih t p h
          exact ⟨j2, List.mem_cons_of_mem _ hj2, hfp, hne⟩
      | none =>
          rw [hf] at h
          obtain ⟨j2, hj2, hfp, hne⟩ := ih t p h
          exact ⟨j2, List.mem_cons_of_mem _ hj2, hfp, hne⟩

theorem firstTruthy_none_of_all (g : RelationshipGraph) (joined : List String) (t : String)
    (h : ∀ j ∈ joined, find_path_between_tables g j t = none) :
    firstTruthy g joined t = none := by
  induction joined with
  | nil => rfl
  | cons j rest ih =>
      simp only [firstTruthy]
      rw [h j (List.mem_cons_self _ _)]
      exact ih fun j2 hj2 => h j2 (List.mem_cons_of_mem _ hj2)

theorem addTargets_mem (joined : List String) (p : List Step) (x : String)
    (h : x ∈ addTargets joined p) : x ∈ joined ∨ ∃ st ∈ p, st.to_table = x := by
  induction p generalizing joined with
  | nil => exact Or.inl h
  | cons st rest ih =>
      simp only [addTargets, List.foldl_cons] at h
      rcases ih _ h with h2 | ⟨st2, h2, h3⟩
      · by_cases hm : st.to_table ∈ joined
        · rw [if_pos hm] at h2
          exact Or.inl h2
        · rw [if_neg hm] at h2
          rcases List.mem_append.mp h2 with h3 | h3
          · exact Or.inl h3
          · exact Or.inr ⟨st, List.mem_cons_self _ _, (List.mem_singleton.mp h3).symm⟩
      · exact Or.inr ⟨st2, List.mem_cons_of_mem _ h2, h3⟩

theorem joinLoop_inr_extends (g : RelationshipGraph) (base : String) :
    ∀ (ts : List String) (acc : List Step) (joined : List String) (accF : List Step),
      joinLoop g base ts acc joined = Sum.inr accF → ∃ ext, accF = acc ++ ext := by
  intro ts
  induction ts with
  | nil =>
      intro acc joined accF h
      obtain rfl : acc = accF := Sum.inr.inj h
      exact ⟨[], by simp⟩
  | cons t0 rest ih =>
      intro acc joined accF h
      simp only [joinLoop] at h
      match hf : firstTruthy g joined t0 with
      | none =>
          rw [hf] at h
          exact absurd h (by simp)
      | some p =>
          rw [hf] at h
          obtain ⟨ext, hext⟩ := ih _ _ _ h
          exact ⟨p ++ ext, by rw [hext, List.append_assoc]⟩

theorem joinLoop_inr_covers (g : RelationshipGraph) (base : String) :
    ∀ (ts : List String) (acc : List Step) (joined : List String) (accF : List Step),
      joinLoop g base ts acc joined = Sum.inr accF →
      ∀ t ∈ ts, t ∈ joined ∨ ∃ st ∈ accF, st.to_table = t := by
  intro ts
  induction ts with
  | nil =>
      intro acc joined accF _ t ht
      simp at ht
  | cons t0 rest ih =>
      intro acc joined accF h t ht
      simp only [joinLoop] at h
      match hf : firstTruthy g joined t0 with
      | none =>
          rw [hf] at h
          exact absurd h (by simp)
      | some p =>
          rw [hf] at h
          obtain ⟨ext, hext⟩ := joinLoop_inr_extends g base rest (acc ++ p) _ accF h
          rcases List.mem_cons.mp ht with rfl | ht2
          · obtain ⟨j, _, hfp, hpne⟩ := firstTruthy_some g joined t p hf
            match p, hpne with
            | s0 :: p2, _ =>
                obtain ⟨st, hst, hto⟩ := pathFrom_exists_to g.adjacency j t s0 p2
                  (find_path_pathFrom g j t _ hfp)
                refine Or.inr ⟨st, ?_, hto⟩
                rw [hext]
                exact List.mem_append_left _ (List.mem_append_right _ hst)
          · rcases ih _ _ _ h t ht2 with hj | hr
            · rcases addTargets_mem joined p t hj with hj2 | ⟨st, hst, hto⟩
              · exact Or.inl hj2
              · refine Or.inr ⟨st, ?_, hto⟩
                rw [hext]
                exact List.mem_append_left _ (List.mem_append_right _ hst)
            · exact Or.inr hr

theorem joinKey_to_table (a b : Step) (h : joinKey a = joinKey b) :
    a.to_table = b.to_table := by
  simp only [joinKey, Prod.mk.injEq] at h
  exact h.2.1

/-- C8: (1) when no already-joined table has any path to the next target, the
connection loop fails with an explanation naming the base and the unreachable
table and reports exactly the joins accumulated so far; (2) such a failure
makes generate_join_query return found=false with no SQL, that explanation,
and the accumulated joins; (3) on success every requested table is the base
or the destination of an emitted join step, so no requested table is omitted
from the SQL. -/
theorem generate_join_unreachable :
    (∀ (g : RelationshipGraph) (base t : String) (rest : List String)
        (acc : List Step) (joined : List String),
        (∀ j ∈ joined, find_path_between_tables g j t = none) →
        joinLoop g base (t :: rest) acc joined =
          Sum.inl (cannotFindMsg base t, acc)) ∧
    (∀ (g : RelationshipGraph) (tables : List String) (sa : Bool)
        (base t1 : String) (ts : List String) (msg : String) (acc : List Step),
        tables = base :: t1 :: ts →
        joinLoop g base (t1 :: ts) [] [base] = Sum.inl (msg, acc) →
        generate_join_query g tables sa =
          { success := false, sql := none, explanation := msg, paths := acc }) ∧
    (∀ (g : RelationshipGraph) (tables : List String) (sa : Bool),
        (generate_join_query g tables sa).success = true →
        ∀ t ∈ tables, t ∈ tables.take 1 ∨
          ∃ st ∈ (generate_join_query g tables sa).paths, st.to_table = t) := by
  refine ⟨?_, ?_, ?_⟩
  · intro g base t rest acc joined hnone
    simp only [joinLoop]
    rw [firstTruthy_none_of_all g joined t hnone]
  · intro g tables sa base t1 ts msg acc htab hl
    subst htab
    simp [generate_join_query, hl]
  · intro g tables sa hs t ht
    obtain ⟨base, t1, ts, acc, htab, hl, hp⟩ := generate_join_success_paths g tables sa hs
    subst htab
    rcases List.mem_cons.mp ht with rfl | ht2
    · exact Or.inl (by simp)
    · rcases joinLoop_inr_covers g base (t1 :: ts) [] [base] acc hl t ht2 with hj | ⟨st, hst, hto⟩
      · exact Or.inl (by simpa using hj)
      · obtain ⟨st2, hst2, hk⟩ := dedupAux_covers acc [] st hst (by simp)
        refine Or.inr ⟨st2, ?_, (joinKey_to_table st2 st hk).trans hto⟩
        rw [hp]
        exact hst2

/-- Witness for C8 at a concrete unreachable target. -/
theorem generate_join_unreachable_witness :
    joinLoop exampleGraph "orders" ["missing"] [] ["orders"] =
      Sum.inl (cannotFindMsg "orders" "missing", []) :=
  generate_join_unreachable.1 exampleGraph "orders" "missing" [] [] ["orders"] (by decide)

end RelationshipAnalyzer
